import Mathlib

set_option maxRecDepth 10000

/-!
Verification development for the WPDAdjuster document property engine.

The engine (src/src/processors and src/src/utils/file_validator.py) is shallowly
embedded below.  Python strings are modelled as `List Char`, Python floats as
exact rationals `ℚ`, `int(x)` as truncation toward zero, dictionaries as
association lists in insertion order, and the in-place mutation of the
python-docx `Document` object as explicit state passing.
-/

/-! ## Basic Python-flavoured helpers -/

/-- ASCII lowercasing of one character, as Python `str.lower` acts on ASCII. -/
def lowerChar (c : Char) : Char :=
  if 'A' ≤ c ∧ c ≤ 'Z' then Char.ofNat (c.toNat + 32) else c

/-- Python's `\s` / `str.strip` whitespace, restricted to ASCII:
space, tab, newline, carriage return, vertical tab, form feed. -/
def pyIsSpace (c : Char) : Bool :=
  c = ' ' || c = '\t' || c = '\n' || c = '\r' || c = Char.ofNat 11 || c = Char.ofNat 12

/-- Split a list into its maximal leading run of characters satisfying `p`
and the remainder. -/
def runSplit (p : Char → Bool) : List Char → List Char × List Char
  | [] => ([], [])
  | c :: cs =>
    if p c then
      let r := runSplit p cs
      (c :: r.1, r.2)
    else ([], c :: cs)

/-- Python `str.strip()`: drop whitespace from both ends. -/
def pyStrip (l : List Char) : List Char :=
  ((l.dropWhile pyIsSpace).reverse.dropWhile pyIsSpace).reverse

/-- Python `sub in s`: substring test. -/
def containsSub (pat : List Char) : List Char → Bool
  | [] => pat.isEmpty
  | c :: cs => pat.isPrefixOf (c :: cs) || containsSub pat cs

/-- Python `str.replace(old, new)` for a non-empty `old`: replace every
non-overlapping occurrence, scanning left to right and continuing after each
replaced segment.  (An empty `old` never arises in the embedded code.)
The fuel only serves structural termination; it is spent one unit per
consumed character, so `s.length` units always suffice. -/
def replaceAllAux (pat rep : List Char) : Nat → List Char → List Char
  | 0, s => s
  | fuel + 1, s =>
    match s with
    | [] => []
    | c :: cs =>
      if pat ≠ [] ∧ pat.isPrefixOf (c :: cs) then
        rep ++ replaceAllAux pat rep fuel ((c :: cs).drop pat.length)
      else
        c :: replaceAllAux pat rep fuel cs

/-- Entry point of `str.replace`. -/
def replaceAll (pat rep s : List Char) : List Char := replaceAllAux pat rep s.length s

/-- Decompose a text at the first occurrence of `pat`: returns the part before
the occurrence and the part after it. -/
def splitFirst (pat : List Char) : List Char → Option (List Char × List Char)
  | [] => none
  | c :: cs =>
    if pat ≠ [] ∧ pat.isPrefixOf (c :: cs) then
      some ([], (c :: cs).drop pat.length)
    else
      match splitFirst pat cs with
      | some (a, b) => some (c :: a, b)
      | none => none

/-- Python `int()` truncation toward zero of an exact rational. -/
def pyTrunc (q : ℚ) : Int := Int.tdiv q.num (Int.ofNat q.den)

/-- The decimal digit character for `n % 10`. -/
def digitChar (n : Nat) : Char :=
  match n % 10 with
  | 0 => '0' | 1 => '1' | 2 => '2' | 3 => '3' | 4 => '4'
  | 5 => '5' | 6 => '6' | 7 => '7' | 8 => '8' | _ => '9'

/-- Decimal digits of a natural number, one fuel unit per digit. -/
def natDigitsAux : Nat → Nat → List Char
  | 0, _ => []
  | fuel + 1, n =>
    if n < 10 then [digitChar n]
    else natDigitsAux fuel (n / 10) ++ [digitChar (n % 10)]

/-- Decimal digits of a natural number, as Python `str` renders it
(`n + 1` fuel units always suffice). -/
def natDigits (n : Nat) : List Char := natDigitsAux (n + 1) n

/-- Decimal rendering of an integer, as Python `str` / f-string formatting. -/
def intDigits (i : Int) : List Char :=
  if i < 0 then '-' :: natDigits i.natAbs else natDigits i.toNat

/-- Number of whitespace-separated tokens, as `len(s.split())` in Python.
The boolean records whether the scan is currently inside a token. -/
def countTokensAux : Bool → List Char → Nat
  | _, [] => 0
  | inWord, c :: cs =>
    if pyIsSpace c then countTokensAux false cs
    else (if inWord then 0 else 1) + countTokensAux true cs

/-- `len(s.split())` in Python. -/
def countTokens (l : List Char) : Nat := countTokensAux false l

/-- Python dict assignment `d[k] = v` on an insertion-ordered association
list: overwrite in place when the key exists, append otherwise. -/
def dictSet {α : Type} [DecidableEq α] (d : List (α × Nat)) (k : α) (v : Nat) :
    List (α × Nat) :=
  if d.any (fun kv => kv.1 = k) then
    d.map (fun kv => if kv.1 = k then (kv.1, v) else kv)
  else d ++ [(k, v)]

/-- Python `d[k] = d.get(k, 0) + 1` on an insertion-ordered association list. -/
def dictIncr {α : Type} [DecidableEq α] (d : List (α × Nat)) (k : α) :
    List (α × Nat) :=
  if d.any (fun kv => kv.1 = k) then
    d.map (fun kv => if kv.1 = k then (kv.1, kv.2 + 1) else kv)
  else d ++ [(k, 1)]

/-- Python `if k in d: d[k] += 1`: increment an existing key, leave the dict
unchanged when the key is absent (keys of the dict are pairwise distinct). -/
def dictIncrIfMem {α : Type} [DecidableEq α] (d : List (α × Nat)) (k : α) :
    List (α × Nat) :=
  if d.any (fun kv => kv.1 = k) then
    d.map (fun kv => if kv.1 = k then (kv.1, kv.2 + 1) else kv)
  else d

/-- First-occurrence deduplication, one fuel unit per kept element. -/
def dedupFirstAux {α : Type} [DecidableEq α] : Nat → List α → List α
  | 0, _ => []
  | _, [] => []
  | fuel + 1, a :: as => a :: dedupFirstAux fuel (as.filter (fun x => x ≠ a))

/-- First-occurrence deduplication of a list, preserving order. -/
def dedupFirst {α : Type} [DecidableEq α] (l : List α) : List α :=
  dedupFirstAux l.length l

/-! ## Paths and the output naming rule -/

/-- A Python `pathlib` path, reduced to the parts the engine uses:
the directory (`parent`) and the final component (`name`). -/
structure PyPath where
  parent : String
  name : List Char
deriving DecidableEq

/-- `str.rfind('.')` on a file name: index of the last dot, if any. -/
def rfindDot (name : List Char) : Option Nat :=
  match name.reverse.findIdx? (fun c => c = '.') with
  | none => none
  | some j => some (name.length - 1 - j)

/-- `pathlib.PurePath.stem`/`suffix` rule: split the name at the last dot when
that dot is neither the first nor the last character, otherwise the suffix is
empty. -/
def pySplitExt (name : List Char) : List Char × List Char :=
  match rfindDot name with
  | none => (name, [])
  | some i =>
    if 0 < i ∧ i < name.length - 1 then (name.take i, name.drop i) else (name, [])

/-- The `_modified` marker inserted between stem and suffix. -/
def modMarker : List Char := "_modified".data

/-- `DocxProcessor._get_output_path`: `{stem}_modified{suffix}` next to the
original. -/
def docx_get_output_path (p : PyPath) : PyPath :=
  { parent := p.parent,
    name := (pySplitExt p.name).1 ++ modMarker ++ (pySplitExt p.name).2 }

/-- `RtfProcessor._get_output_path`: textually identical to the docx one. -/
def rtf_get_output_path (p : PyPath) : PyPath :=
  { parent := p.parent,
    name := (pySplitExt p.name).1 ++ modMarker ++ (pySplitExt p.name).2 }

/-! ## The validator (src/src/utils/file_validator.py) -/

/-- `SUPPORTED_EXTENSIONS` from file_validator.py. -/
def supportedExtensions : List (List Char) := [".docx".data, ".rtf".data]

/-- `SUPPORTED_MIME_TYPES` from file_validator.py. -/
def supportedMimeTypes : List (List Char) :=
  ["application/vnd.openxmlformats-officedocument.wordprocessingml.document".data,
   "application/rtf".data, "text/rtf".data]

/-- `file_path.suffix.lower()`. -/
def pySuffixLower (name : List Char) : List Char := (pySplitExt name).2.map lowerChar

/-- The four ways `validate_file` can reject a path, in source order. -/
inductive ValError where
  | notExists
  | notAFile
  | badExtension
  | badMime
deriving DecidableEq

/-- `validate_file`: existence, regular-file, extension, then MIME check.
The filesystem facts (`fsExists`, `fsIsFile`) and the `mimetypes.guess_type`
answer are passed in explicitly; none of them depends on the file content. -/
def validate_file (fsExists fsIsFile : Bool) (name : List Char)
    (mime : Option (List Char)) : Option ValError :=
  if fsExists = false then some ValError.notExists
  else if fsIsFile = false then some ValError.notAFile
  else if ¬ (pySuffixLower name ∈ supportedExtensions) then some ValError.badExtension
  else
    match mime with
    | some m => if ¬ (m ∈ supportedMimeTypes) then some ValError.badMime else none
    | none => none

/-! ## The DOCX adapter model (src/src/processors/docx_processor.py) -/

/-- python-docx lengths are EMU integers; `Inches(x)` is `int(x * 914400)`.
Floats are modelled as exact rationals and `int()` as truncation toward zero. -/
def Inches (q : ℚ) : Int := pyTrunc (q * 914400)

/-- python-docx `Pt(x)`: `int(x * 12700)` EMU. -/
def Pt (q : ℚ) : Int := pyTrunc (q * 12700)

/-- The `.inches` accessor of a python-docx length. -/
def emuToInches (e : Int) : ℚ := (e : ℚ) / 914400

/-- A run: the smallest styled unit of text, carrying its own font name/size
(`None` when not declared). -/
structure Run where
  font_name : Option String
  font_size : Option Int
  text : List Char
deriving DecidableEq

/-- The line-spacing rule of a paragraph format; the code only ever writes
`WD_LINE_SPACING.MULTIPLE`, other states are carried opaquely. -/
inductive LineSpacingRule where
  | multiple
  | other (code : Nat)
deriving DecidableEq

/-- The paragraph format fields touched by the code. -/
structure ParagraphFormat where
  line_spacing_rule : Option LineSpacingRule
  line_spacing : Option ℚ
deriving DecidableEq

/-- A paragraph: runs, a style name, and its format. -/
structure Paragraph where
  runs : List Run
  style_name : String
  format : ParagraphFormat
deriving DecidableEq

/-- python-docx `paragraph.text`: concatenation of the run texts. -/
def paragraphText (p : Paragraph) : List Char :=
  (p.runs.map Run.text).foldr (fun a b => a ++ b) []

/-- Core document properties read by the extractor. -/
structure CoreProperties where
  title : Option String
  author : Option String
deriving DecidableEq

/-- A section carrying page geometry and margins, all in EMU. -/
structure DocxSection where
  page_width : Int
  page_height : Int
  top_margin : Int
  bottom_margin : Int
  left_margin : Int
  right_margin : Int
deriving DecidableEq

/-- The in-memory python-docx `Document`, restricted to the parts the code
reads or writes. -/
structure Doc where
  core_properties : CoreProperties
  sections : List DocxSection
  paragraphs : List Paragraph
  table_count : Nat
deriving DecidableEq

/-- `settings['page_size']` as consumed by `_apply_page_size` (a dict with
optional `width`/`height`). -/
structure PageSizeSettings where
  width : Option ℚ
  height : Option ℚ
deriving DecidableEq

/-- `settings['margins']`: zero or more of the four sides. -/
structure MarginSettings where
  top : Option ℚ
  bottom : Option ℚ
  left : Option ℚ
  right : Option ℚ
deriving DecidableEq

/-- `settings['font_settings']` (and the spec schema's `font`): optional
family and size. -/
structure FontSettings where
  family : Option String
  size : Option ℚ
deriving DecidableEq

/-- The settings dictionary passed to `apply_modifications`.  The processors
read the keys `page_size`, `margins`, `font_settings` and `line_spacing`; the
field `font` models the key named by the spec's schema, which a settings dict
may well contain but which no processor ever reads. -/
structure ModificationSettings where
  page_size : Option PageSizeSettings
  margins : Option MarginSettings
  font_settings : Option FontSettings
  line_spacing : Option ℚ
  font : Option FontSettings
deriving DecidableEq

/-- Python truthiness of an optional string (`None` and `''` are falsy). -/
def truthyStr : Option String → Bool
  | none => false
  | some s => if s = "" then false else true

/-- Python truthiness of an optional number (`None` and `0` are falsy). -/
def truthyRat : Option ℚ → Bool
  | none => false
  | some q => if q = 0 then false else true

/-- One section under `_apply_page_size` (defaults 8.5 × 11 via `dict.get`). -/
def applySectionPageSize (ps : PageSizeSettings) (s : DocxSection) : DocxSection :=
  { s with page_width := Inches (ps.width.getD (17 / 2)),
           page_height := Inches (ps.height.getD 11) }

/-- `DocxProcessor._apply_page_size`. -/
def docx_apply_page_size (doc : Doc) (ps : PageSizeSettings) : Doc :=
  { doc with sections := doc.sections.map (applySectionPageSize ps) }

/-- One section under `_apply_margins`: only the sides present in the
settings are written, in source order top, bottom, left, right. -/
def applySectionMargins (m : MarginSettings) (s : DocxSection) : DocxSection :=
  let s1 := match m.top with
    | some v => { s with top_margin := Inches v }
    | none => s
  let s2 := match m.bottom with
    | some v => { s1 with bottom_margin := Inches v }
    | none => s1
  let s3 := match m.left with
    | some v => { s2 with left_margin := Inches v }
    | none => s2
  match m.right with
  | some v => { s3 with right_margin := Inches v }
  | none => s3

/-- `DocxProcessor._apply_margins`. -/
def docx_apply_margins (doc : Doc) (m : MarginSettings) : Doc :=
  { doc with sections := doc.sections.map (applySectionMargins m) }

/-- One run under `_apply_font_settings`: name written when the family is
truthy, size written (as `Pt`) when the size is truthy. -/
def applyRunFont (fs : FontSettings) (r : Run) : Run :=
  let r1 := if truthyStr fs.family then { r with font_name := fs.family } else r
  if truthyRat fs.size then { r1 with font_size := fs.size.map Pt } else r1

/-- `DocxProcessor._apply_font_settings`: guarded by the truthiness of either
field, then every run of every paragraph is rewritten. -/
def docx_apply_font_settings (doc : Doc) (fs : FontSettings) : Doc :=
  if truthyStr fs.family || truthyRat fs.size then
    { doc with paragraphs := doc.paragraphs.map (fun p =>
        { p with runs := p.runs.map (applyRunFont fs) }) }
  else doc

/-- `DocxProcessor._apply_line_spacing`: every paragraph gets the MULTIPLE
rule and the multiplier. -/
def docx_apply_line_spacing (doc : Doc) (ls : ℚ) : Doc :=
  { doc with paragraphs := doc.paragraphs.map (fun p =>
      { p with format := { line_spacing_rule := some LineSpacingRule.multiple,
                           line_spacing := some ls } }) }

/-- The four conditional steps of `DocxProcessor.apply_modifications`, in
source order, acting on the retained in-memory document. -/
def docx_apply_doc (doc : Doc) (s : ModificationSettings) : Doc :=
  let d1 := match s.page_size with
    | some ps => docx_apply_page_size doc ps
    | none => doc
  let d2 := match s.margins with
    | some m => docx_apply_margins d1 m
    | none => d1
  let d3 := match s.font_settings with
    | some fs => docx_apply_font_settings d2 fs
    | none => d2
  match s.line_spacing with
  | some ls => docx_apply_line_spacing d3 ls
  | none => d3

/-- `DocxProcessor._extract_fonts`: for every run declaring a (truthy) font
name, count it in insertion order. -/
def docx_extract_fonts (doc : Doc) : List (String × Nat) :=
  doc.paragraphs.foldl
    (fun d p => p.runs.foldl
      (fun d r =>
        match r.font_name with
        | some nm => if nm = "" then d else dictIncr d nm
        | none => d) d) []

/-- The six fixed heading style names. -/
def headingKeys : List String :=
  ["Heading 1", "Heading 2", "Heading 3", "Heading 4", "Heading 5", "Heading 6"]

/-- `DocxProcessor._count_headings`: start from the six zeroed keys and
increment the matching key for each paragraph style. -/
def docx_count_headings (doc : Doc) : List (String × Nat) :=
  doc.paragraphs.foldl
    (fun d p => if d.any (fun kv => kv.1 = p.style_name) then dictIncrIfMem d p.style_name else d)
    (headingKeys.map (fun k => (k, 0)))

/-- Reported page dimensions in inches. -/
structure PageDims where
  width : ℚ
  height : ℚ
deriving DecidableEq

/-- Reported margins in inches. -/
structure MarginsRec where
  top : ℚ
  bottom : ℚ
  left : ℚ
  right : ℚ
deriving DecidableEq

/-- Python `x or default` for an optional string (empty string is falsy). -/
def pyOrStr (o : Option String) (d : String) : String :=
  match o with
  | none => d
  | some s => if s = "" then d else s

/-- The dictionary returned by `DocxProcessor.process_document`; the
`document` field retains the in-memory package for later modification. -/
structure DocxMetadata where
  file_path : PyPath
  filename : List Char
  file_type : String
  title : String
  author : String
  page_count : Nat
  word_count : Nat
  paragraph_count : Nat
  page_dimensions : PageDims
  margins : MarginsRec
  fonts_used : List (String × Nat)
  heading_counts : List (String × Nat)
  table_count : Nat
  document : Doc
deriving DecidableEq

/-- `DocxProcessor.process_document` on a successfully opened document:
first section (or the 8.5 × 11, 1-inch fallbacks when there is none),
fonts, headings, counts. -/
def docx_process_document (path : PyPath) (doc : Doc) : DocxMetadata :=
  { file_path := path
    filename := path.name
    file_type := "docx"
    title := pyOrStr doc.core_properties.title "Untitled"
    author := pyOrStr doc.core_properties.author "Unknown"
    page_count := doc.sections.length
    word_count := (doc.paragraphs.map (fun p => countTokens (paragraphText p))).sum
    paragraph_count := doc.paragraphs.length
    page_dimensions :=
      match doc.sections.head? with
      | some s => ⟨emuToInches s.page_width, emuToInches s.page_height⟩
      | none => ⟨17 / 2, 11⟩
    margins :=
      match doc.sections.head? with
      | some s => ⟨emuToInches s.top_margin, emuToInches s.bottom_margin,
                   emuToInches s.left_margin, emuToInches s.right_margin⟩
      | none => ⟨1, 1, 1, 1⟩
    fonts_used := docx_extract_fonts doc
    heading_counts := docx_count_headings doc
    table_count := doc.table_count
    document := doc }

/-- `DocxProcessor.apply_modifications` as a state transformer on the
document data: the property changes mutate the retained document in place
before the save is attempted, so the returned data carries the mutated
document whether or not the save (`saveOk`) succeeds; a failed save surfaces
as the wrapped `ValueError`. -/
def docx_apply_modifications (data : DocxMetadata) (s : ModificationSettings)
    (saveOk : Bool) : Except String PyPath × DocxMetadata :=
  let doc2 := docx_apply_doc data.document s
  let data2 := { data with document := doc2 }
  (if saveOk then Except.ok (docx_get_output_path data.file_path)
   else Except.error "Failed to apply modifications", data2)

/-! ## The RTF adapter model (src/src/processors/rtf_processor.py) -/

/-- The control-stream opening tag targeted by the margin injections. -/
def rtfTag : List Char := "\\rtf1".data

/-- The four margin control-word prefixes, as searched for and injected. -/
def cwMargl : List Char := "\\margl".data

/-- Right-margin control word. -/
def cwMargr : List Char := "\\margr".data

/-- Top-margin control word. -/
def cwMargt : List Char := "\\margt".data

/-- Bottom-margin control word. -/
def cwMargb : List Char := "\\margb".data

/-- One side of the margin patch in `RtfProcessor.apply_modifications`:
when the side is requested and its control word is absent from the
*original* text (substring search), every occurrence of `\rtf1` in the
current text is rewritten to `\rtf1<cw><twips>`, where
`twips = int(value * 1440)`. -/
def rtfStepSide (cw : List Char) (requested : Option ℚ) (orig cur : List Char) :
    List Char :=
  match requested with
  | some v =>
    if containsSub cw orig then cur
    else replaceAll rtfTag (rtfTag ++ cw ++ intDigits (pyTrunc (v * 1440))) cur
  | none => cur

/-- The modified text computed by `RtfProcessor.apply_modifications`
(the text that is then written to the output path whether or not any
insertion occurred): the four sides are patched in source order
left, right, top, bottom, all presence checks against the original text. -/
def rtfModifiedContent (s : ModificationSettings) (orig : List Char) : List Char :=
  match s.margins with
  | none => orig
  | some m =>
    let c1 := rtfStepSide cwMargl m.left orig orig
    let c2 := rtfStepSide cwMargr m.right orig c1
    let c3 := rtfStepSide cwMargt m.top orig c2
    rtfStepSide cwMargb m.bottom orig c3

/-- `len(re.findall(lit, s))` for a literal pattern: non-overlapping
occurrences, leftmost first (fuel-structural, one unit per character). -/
def countOccAux (pat : List Char) : Nat → List Char → Nat
  | 0, _ => 0
  | _ + 1, [] => 0
  | fuel + 1, c :: cs =>
    if pat ≠ [] ∧ pat.isPrefixOf (c :: cs) then
      1 + countOccAux pat fuel ((c :: cs).drop pat.length)
    else countOccAux pat fuel cs

/-- Non-overlapping occurrence count of a literal pattern. -/
def countOcc (pat s : List Char) : Nat := countOccAux pat s.length s

/-! ### A small backtracking matcher for the regexes of the RTF extractor

The extractor uses three `re` patterns.  Each is a sequence of literals and
single-character classes under greedy `*`/`+`, so a match is found by trying,
for each quantified class, the longest run first and backtracking.  The items
below mirror exactly that. -/

/-- First successful application of `f` along a list of candidates. -/
def firstSome {α β : Type} (f : α → Option β) : List α → Option β
  | [] => none
  | a :: as =>
    match f a with
    | some b => some b
    | none => firstSome f as

/-- Case-insensitive literal match (Python `re.IGNORECASE` on ASCII);
returns the rest of the text after the literal. -/
def litIMatch : List Char → List Char → Option (List Char)
  | [], cs => some cs
  | _ :: _, [] => none
  | p :: ps, c :: cs => if lowerChar p = lowerChar c then litIMatch ps cs else none

/-- The candidate resume points of a greedy `class*`, longest consumed
first (the backtracking order of a greedy quantifier). -/
def greedyRests (p : Char → Bool) (cs : List Char) : List (List Char) :=
  let r := runSplit p cs
  r.1.tails.reverse.map (fun t => t ++ r.2)

/-- One regex item: a literal (case-insensitive or exact) or a greedy
starred/plussed single-character class. -/
inductive RItem where
  | litI : List Char → RItem
  | starC : (Char → Bool) → RItem
  | plusC : (Char → Bool) → RItem

/-- Backtracking matcher for a sequence of items, anchored at the start of
the text; returns the text after the match.  Greedy quantifiers try the
longest run first, exactly as Python `re` does for these patterns. -/
def matchItems : List RItem → List Char → Option (List Char)
  | [], cs => some cs
  | RItem.litI l :: its, cs =>
    match litIMatch l cs with
    | some rest => matchItems its rest
    | none => none
  | RItem.starC p :: its, cs => firstSome (fun t => matchItems its t) (greedyRests p cs)
  | RItem.plusC p :: its, cs =>
    firstSome (fun t => matchItems its t) (greedyRests p cs).dropLast

/-- `len(re.findall(pattern, s))`: scan left to right, count a match and
resume after it; on failure advance one character.  The fuel equals the text
length, which suffices because every pattern used consumes at least one
character per match. -/
def countMatchesAux (its : List RItem) : Nat → List Char → Nat
  | 0, _ => 0
  | _ + 1, [] => 0
  | fuel + 1, c :: cs =>
    match matchItems its (c :: cs) with
    | some rest => 1 + countMatchesAux its fuel rest
    | none => countMatchesAux its fuel cs

/-- Entry point of the findall counter. -/
def countMatches (its : List RItem) (cs : List Char) : Nat :=
  countMatchesAux its cs.length cs

/-- The font-usage pattern `\\f\d+\s*[^\\]*<name>` with `re.IGNORECASE`,
from `_extract_rtf_fonts`. -/
def countPatItems (name : List Char) : List RItem :=
  [RItem.litI ['\\', 'f'], RItem.plusC Char.isDigit, RItem.starC pyIsSpace,
   RItem.starC (fun c => c != '\\'), RItem.litI name]

/-- Opening brace character (written via its code point). -/
def obrace : Char := Char.ofNat 123

/-- Closing brace character. -/
def cbrace : Char := Char.ofNat 125

/-- The literal that anchors the font-table search. -/
def fontTblLit : List Char := "\\fonttbl".data

/-- The font-table pattern `\\fonttbl\s*\{([^}]+)\}` anchored at the start of
`cs`: literal, greedy whitespace, an opening brace, a non-empty run free of
closing braces (the captured group), a closing brace.  Deterministic because
each quantified class excludes the character that follows it.  Returns the
captured group and the text after the whole match. -/
def fontTableAt (cs : List Char) : Option (List Char × List Char) :=
  if fontTblLit.isPrefixOf cs then
    let r1 := cs.drop fontTblLit.length
    let r2 := (runSplit pyIsSpace r1).2
    match r2 with
    | c :: r3 =>
      if c = obrace then
        let bodySplit := runSplit (fun d => d != cbrace) r3
        match bodySplit.2 with
        | d :: after =>
          if d = cbrace ∧ bodySplit.1 ≠ [] then some (bodySplit.1, after) else none
        | [] => none
      else none
    | [] => none
  else none

/-- `re.search` scan for the font-table pattern: leftmost successful match,
returning the captured group and the text after the match. -/
def findFontTableSplit : List Char → Option (List Char × List Char)
  | [] => none
  | c :: cs =>
    match fontTableAt (c :: cs) with
    | some r => some r
    | none => findFontTableSplit cs

/-- The captured font-table block used by `_extract_rtf_fonts`. -/
def findFontTable (content : List Char) : Option (List Char) :=
  (findFontTableSplit content).map (fun r => r.1)

/-- The `\s*([^;]+);` tail of the declaration pattern, anchored at `cs`,
with the one backtracking case Python `re` exercises: when everything up to
the first `;` is whitespace, the greedy `\s*` gives one character back so the
non-empty group captures it.  Returns the group and the text after the `;`. -/
def tailNameSemi (cs : List Char) : Option (List Char × List Char) :=
  let pre := runSplit (fun c => c != ';') cs
  match pre.2 with
  | _ :: rest =>
    if pre.1 = [] then none
    else
      let ws := runSplit pyIsSpace pre.1
      match ws.2 with
      | [] => some (pre.1.drop (pre.1.length - 1), rest)
      | _ => some (ws.2, rest)
  | [] => none

/-- Backtracking over the greedy `\d+` of `\\f(\d+)\s*([^;]+);`: try the
longest digit prefix first; a shorter one lets `[^;]+` absorb the remaining
digits (Python finds such matches, e.g. in `\f12;`). -/
def declTryIds (digits rest0 : List Char) : Nat → Option (List Char × List Char × List Char)
  | 0 => none
  | k + 1 =>
    match tailNameSemi (digits.drop (k + 1) ++ rest0) with
    | some (nm, r) => some (digits.take (k + 1), nm, r)
    | none => declTryIds digits rest0 k

/-- The declaration pattern `\\f(\d+)\s*([^;]+);` anchored at the start:
returns (id digits, raw name, rest after the match). -/
def declAt : List Char → Option (List Char × List Char × List Char)
  | '\\' :: 'f' :: cs =>
    let d := runSplit Char.isDigit cs
    if d.1 = [] then none else declTryIds d.1 d.2 d.1.length
  | _ => none

/-- `re.findall` of the declaration pattern over the captured font table:
scan left to right, resume after each match.  Fuel equals the text length;
every match consumes at least four characters. -/
def findFontDeclsAux : Nat → List Char → List (List Char × List Char)
  | 0, _ => []
  | _ + 1, [] => []
  | fuel + 1, c :: cs =>
    match declAt (c :: cs) with
    | some (fid, nm, rest) => (fid, nm) :: findFontDeclsAux fuel rest
    | none => findFontDeclsAux fuel cs

/-- The declared `(id, name)` pairs of the font table. -/
def findFontDecls (table : List Char) : List (List Char × List Char) :=
  findFontDeclsAux table.length table

/-- `RtfProcessor._extract_rtf_fonts`: locate the font table, seed the dict
with the stripped declared names (ids are discarded), then overwrite each
key with the number of matches of `\\f\d+\s*[^\\]*<name>` (IGNORECASE) in
the whole content. -/
def extract_rtf_fonts (content : List Char) : List (List Char × Nat) :=
  match findFontTable content with
  | none => []
  | some table =>
    let decls := findFontDecls table
    let fonts0 := decls.foldl (fun d kv => dictSet d (pyStrip kv.2) 0) []
    fonts0.map (fun kv => (kv.1, countMatches (countPatItems kv.1) content))

/-- The property pattern `\\<prop>\s*([^\\}]+)` (IGNORECASE) anchored at the
start of `cs`; the group is stripped as in `_extract_rtf_property`.  When the
greedy `\s*` leaves nothing for the non-empty group, one whitespace character
is given back to it. -/
def propAt (prop : List Char) (cs : List Char) : Option (List Char) :=
  match litIMatch ('\\' :: prop) cs with
  | none => none
  | some rest =>
    let ws := runSplit pyIsSpace rest
    let body := runSplit (fun c => !(c == '\\' || c == cbrace)) ws.2
    match body.1 with
    | [] =>
      match ws.1 with
      | [] => none
      | _ => some (pyStrip (ws.1.drop (ws.1.length - 1)))
    | _ => some (pyStrip body.1)

/-- `RtfProcessor._extract_rtf_property`: `re.search` scan for the property
pattern, stripped first match or `None`. -/
def extract_rtf_property (prop : List Char) : List Char → Option (List Char)
  | [] => none
  | c :: cs =>
    match propAt prop (c :: cs) with
    | some v => some v
    | none => extract_rtf_property prop cs

/-- Python `x or default` for an optional character list. -/
def pyOrChars (o : Option (List Char)) (d : List Char) : List Char :=
  match o with
  | none => d
  | some s => if s = [] then d else s

/-- `plain_text.split('\n')`. -/
def splitOnNl : List Char → List (List Char)
  | [] => [[]]
  | c :: cs =>
    if c = '\n' then [] :: splitOnNl cs
    else
      match splitOnNl cs with
      | [] => [[c]]
      | l :: ls => (c :: l) :: ls

/-- `len([p.strip() for p in plain.split('\n') if p.strip()])`. -/
def countParagraphs (plain : List Char) : Nat :=
  ((splitOnNl plain).filter (fun l => !(pyStrip l).isEmpty)).length

/-- The dictionary returned by `RtfProcessor.process_document`; the
`rtf_content` field retains the raw original text for later modification. -/
structure RtfMetadata where
  file_path : PyPath
  filename : List Char
  file_type : String
  title : List Char
  author : List Char
  page_count : Nat
  word_count : Nat
  paragraph_count : Nat
  page_dimensions : PageDims
  margins : MarginsRec
  fonts_used : List (List Char × Nat)
  heading_counts : List (String × Nat)
  table_count : Nat
  rtf_content : List Char
deriving DecidableEq

/-- `RtfProcessor.process_document` on readable text.  The plain-text
rendering is produced by the external `striprtf` library, passed in here as
the function `rtfToText`; page dimensions and margins are the documented
Letter-page constants; headings are always the six zeroed keys. -/
def rtf_process_document (rtfToText : List Char → List Char) (path : PyPath)
    (content : List Char) : RtfMetadata :=
  let plain := rtfToText content
  { file_path := path
    filename := path.name
    file_type := "rtf"
    title := pyOrChars (extract_rtf_property "title".data content) "Untitled".data
    author := pyOrChars (extract_rtf_property "author".data content) "Unknown".data
    page_count := 1
    word_count := countTokens plain
    paragraph_count := countParagraphs plain
    page_dimensions := ⟨17 / 2, 11⟩
    margins := ⟨1, 1, 1, 1⟩
    fonts_used := extract_rtf_fonts content
    heading_counts := headingKeys.map (fun k => (k, 0))
    table_count := countOcc "\\trowd".data content
    rtf_content := content }

/-- `RtfProcessor.apply_modifications`: the patched text and the output path
it is written to (the write happens whether or not any insertion occurred). -/
def rtf_apply_modifications (data : RtfMetadata) (s : ModificationSettings) :
    List Char × PyPath :=
  (rtfModifiedContent s data.rtf_content, rtf_get_output_path data.file_path)

/-! ## The dispatcher (src/src/processors/document_processor.py) -/

/-- What is on disk at a path, as far as the adapters can see it: a parseable
structured package, readable text, or anything else. -/
inductive InputDoc where
  | docxDoc (d : Doc)
  | rtfDoc (text : List Char)
  | rawOther (bytes : List Char)
deriving DecidableEq

/-- The failures `DocumentProcessor.process_document` can surface: a
validation rejection, an adapter parse failure, or the (post-validation)
unsupported-extension branch. -/
inductive DispatchError where
  | invalidFile (e : ValError)
  | invalidDocument
  | unsupportedType
deriving DecidableEq

/-- The metadata union returned by the dispatcher. -/
inductive ProcMetadata where
  | docxMeta (m : DocxMetadata)
  | rtfMeta (m : RtfMetadata)
deriving DecidableEq

/-- `DocumentProcessor.process_document`: validate first (which never looks
at the content), then dispatch on the lowered extension. -/
def dispatch_process_document (rtfToText : List Char → List Char)
    (fsExists fsIsFile : Bool) (path : PyPath) (mime : Option (List Char))
    (content : InputDoc) : Except DispatchError ProcMetadata :=
  match validate_file fsExists fsIsFile path.name mime with
  | some e => Except.error (DispatchError.invalidFile e)
  | none =>
    if pySuffixLower path.name = ".docx".data then
      match content with
      | InputDoc.docxDoc d => Except.ok (ProcMetadata.docxMeta (docx_process_document path d))
      | _ => Except.error DispatchError.invalidDocument
    else if pySuffixLower path.name = ".rtf".data then
      match content with
      | InputDoc.rtfDoc t => Except.ok (ProcMetadata.rtfMeta (rtf_process_document rtfToText path t))
      | _ => Except.error DispatchError.invalidDocument
    else Except.error DispatchError.unsupportedType

/-! ## Spec-side definitions used to settle the refinement-style claims -/

/-- Whether the control word `\f<id>` is referenced at the head of `cs`
(the id must not continue with a further digit). -/
def idRefAt (fid : List Char) (cs : List Char) : Bool :=
  ('\\' :: 'f' :: fid).isPrefixOf cs &&
    (match cs.drop (2 + fid.length) with
     | [] => true
     | d :: _ => !d.isDigit)

/-- Number of references of the font id `fid` in a text (occurrences cannot
overlap, as each contains a single backslash). -/
def countIdRefs (fid : List Char) : List Char → Nat
  | [] => 0
  | c :: cs => (if idRefAt fid (c :: cs) then 1 else 0) + countIdRefs fid cs

/-- Modelled from the spec: the fonts_used mapping C6 describes — locate the
font table block, collect its declared `(id, name)` pairs, then, for each
declared font, count how many times that font's id is referenced anywhere in
the remaining document body (the text after the font table block). -/
def spec_fonts_used (content : List Char) : List (List Char × Nat) :=
  match findFontTableSplit content with
  | none => []
  | some (table, body) =>
    (findFontDecls table).map (fun kv => (pyStrip kv.2, countIdRefs kv.1 body))

/-- The amended counting rule actually implemented: keys are the stripped
declared names in first-occurrence order, and each count is the number of
matches, anywhere in the whole content, of any font control word followed by
optional whitespace, a backslash-free stretch, and the font's name
(case-insensitively). -/
def amended_fonts_used (content : List Char) : List (List Char × Nat) :=
  match findFontTable content with
  | none => []
  | some table =>
    (dedupFirst ((findFontDecls table).map (fun kv => pyStrip kv.2))).map
      (fun nm => (nm, countMatches (countPatItems nm) content))

/-! ## Concrete inputs used by witnesses and counterexamples -/

/-- The string a conditional margin injection contributes for one side:
empty when the side is not requested or its control word is already present
in the original text, otherwise the control word followed by the twips value. -/
def sideExtraOf (cw : List Char) (req : Option ℚ) (orig : List Char) : List Char :=
  match req with
  | some v => if containsSub cw orig then [] else cw ++ intDigits (pyTrunc (v * 1440))
  | none => []

/-- A path with an unsupported extension. -/
def pathCsv : PyPath := ⟨"/docs", "data.csv".data⟩

/-- A structured-package path. -/
def pathDocx : PyPath := ⟨"/docs", "report.docx".data⟩

/-- A structured-package document with zero sections. -/
def emptySectionsDoc : Doc := ⟨⟨none, none⟩, [], [], 0⟩

/-- Settings with only `margins.top` set. -/
def topOnly (x : ℚ) : ModificationSettings :=
  ⟨none, some ⟨some x, none, none, none⟩, none, none, none⟩

/-- Settings with only `margins.left` set. -/
def leftOnly (x : ℚ) : ModificationSettings :=
  ⟨none, some ⟨none, none, some x, none⟩, none, none, none⟩

/-- A run declaring Times New Roman and no size. -/
def timesRun : Run := ⟨some "Times New Roman", none, "hello".data⟩

/-- A one-paragraph document whose single run declares Times New Roman. -/
def docTimes : Doc := ⟨⟨none, none⟩, [], [⟨[timesRun], "Normal", ⟨none, none⟩⟩], 0⟩

/-- Settings carrying the spec-schema key `font` (and nothing under the key
the code actually reads). -/
def specFontKeySettings : ModificationSettings :=
  ⟨none, none, none, none, some ⟨some "Arial", none⟩⟩

/-- Settings carrying `font_settings` with a family only. -/
def arialFamilySettings : ModificationSettings :=
  ⟨none, none, some ⟨some "Arial", none⟩, none, none⟩

/-- Settings carrying `font_settings` with family and size. -/
def arialSizedSettings : ModificationSettings :=
  ⟨none, none, some ⟨some "Arial", some 12⟩, none, none⟩

/-- Settings with every key absent. -/
def emptySettings : ModificationSettings := ⟨none, none, none, none, none⟩

/-- A Letter-page section in EMU. -/
def sectionLetter : DocxSection := ⟨7772400, 10058400, 914400, 914400, 914400, 914400⟩

/-- A small document used to exhibit compounding of a second apply. -/
def docC10 : Doc := ⟨⟨some "T", some "A"⟩, [sectionLetter], [⟨[timesRun], "Normal", ⟨none, none⟩⟩], 0⟩

/-- The document data a first inspect would hand to apply. -/
def dataC10 : DocxMetadata := docx_process_document pathDocx docC10

/-- A control-word text in which the opening tag occurs twice. -/
def rtfTwoTags : List Char := "\x7b\\rtf1 abc \\rtf1 def\x7d".data

/-- A control-word text that already carries a left-margin control word. -/
def rtfWithMargl : List Char := "\x7b\\rtf1\\margl720 x\x7d".data

/-- A control-word text declaring one font and referencing its id twice in
the body. -/
def fontsRtfContent : List Char :=
  "\x7b\\rtf1\x7b\\fonttbl\x7b\\f0 Arial;\x7d\x7d\\f0 a \\f0 b\x7d".data

/-! # Theorems -/

/-! ## Generic helper lemmas -/

theorem pySplitExt_append (name : List Char) :
    (pySplitExt name).1 ++ (pySplitExt name).2 = name := by
  unfold pySplitExt
  cases rfindDot name with
  | none => simp
  | some i =>
    by_cases h : 0 < i ∧ i < name.length - 1
    · simp [h]
    · simp [h]

theorem dictIncrIfMem_keys {α : Type} [DecidableEq α] (d : List (α × Nat)) (k : α) :
    (dictIncrIfMem d k).map Prod.fst = d.map Prod.fst := by
  unfold dictIncrIfMem
  split
  · rw [List.map_map]
    refine List.map_congr_left (fun kv _ => ?_)
    by_cases h : kv.1 = k <;> simp [h]
  · rfl

theorem headings_fold_keys (ps : List Paragraph) (d : List (String × Nat)) :
    (ps.foldl (fun d p =>
        if d.any (fun kv => kv.1 = p.style_name) then dictIncrIfMem d p.style_name else d)
      d).map Prod.fst = d.map Prod.fst := by
  induction ps generalizing d with
  | nil => rfl
  | cons p ps ih =>
    rw [List.foldl_cons, ih]
    split
    · exact dictIncrIfMem_keys d p.style_name
    · rfl

/-! ## Claim theorems -/

/-- C8: with either adapter, the modified document is written to
`{stem}_modified{suffix}` in the same directory as the original; the output
path is a function of the input path alone (so repeated calls with the same
stem hit the same output path), and it never equals the original path. -/
theorem output_path_rule (p : PyPath) :
    (docx_get_output_path p).parent = p.parent ∧
    (docx_get_output_path p).name =
      (pySplitExt p.name).1 ++ modMarker ++ (pySplitExt p.name).2 ∧
    rtf_get_output_path p = docx_get_output_path p ∧
    docx_get_output_path p ≠ p := by
  refine ⟨rfl, rfl, rfl, fun h => ?_⟩
  have hn : (pySplitExt p.name).1 ++ modMarker ++ (pySplitExt p.name).2 = p.name :=
    congrArg PyPath.name h
  have hm : modMarker.length = 9 := rfl
  have h1 := congrArg List.length hn
  rw [List.length_append, List.length_append, hm] at h1
  have h2 := congrArg List.length (pySplitExt_append p.name)
  rw [List.length_append] at h2
  omega

/-- C9: every metadata produced by a successful inspect carries heading
counts over exactly the six keys "Heading 1" .. "Heading 6" (the counts are
naturals, hence non-negative), and the control-word adapter always reports
all six as zero. -/
theorem heading_counts_shape (path : PyPath) (doc : Doc)
    (rtfToText : List Char → List Char) (content : List Char) :
    (docx_process_document path doc).heading_counts.map Prod.fst = headingKeys ∧
    (rtf_process_document rtfToText path content).heading_counts =
      headingKeys.map (fun k => (k, 0)) := by
  constructor
  · show (docx_count_headings doc).map Prod.fst = headingKeys
    unfold docx_count_headings
    rw [headings_fold_keys, List.map_map]
    simp [headingKeys]
  · rfl

/-- C5: apply with only `margins.top = x` set rewrites exactly the top margin
on every section (to the EMU encoding of x inches); the other three margins of
every section, the paragraphs, the core properties and the table count are
unchanged relative to the source document. -/
theorem margins_top_only_frame (doc : Doc) (x : ℚ) :
    docx_apply_doc doc (topOnly x) =
      { doc with sections := doc.sections.map (fun sec => { sec with top_margin := Inches x }) } := by
  rfl

/-- C10: apply mutates the document held in the metadata in place before
saving: when the save fails the handle keeps every change already applied,
and a second apply on the same data operates on — and compounds — those
changes; concretely, a second apply after a failed font override does not
start from the original document state. -/
theorem docx_apply_in_place (data : DocxMetadata) (s1 s2 : ModificationSettings) (ok : Bool) :
    ((docx_apply_modifications data s1 false).2).document = docx_apply_doc data.document s1 ∧
    (docx_apply_modifications data s1 false).1 = Except.error "Failed to apply modifications" ∧
    ((docx_apply_modifications (docx_apply_modifications data s1 false).2 s2 ok).2).document =
      docx_apply_doc (docx_apply_doc data.document s1) s2 ∧
    ((docx_apply_modifications (docx_apply_modifications dataC10 arialFamilySettings false).2
        emptySettings true).2).document ≠ docx_apply_doc dataC10.document emptySettings := by
  refine ⟨rfl, rfl, rfl, ?_⟩
  decide

/-- C2 counterexample: on a zero-section document, apply with a margin
request creates no default section state — the section list stays empty and
the document comes back unchanged, refuting the claimed mechanism. -/
theorem zero_sections_apply_creates_nothing :
    docx_apply_doc emptySectionsDoc (topOnly 2) = emptySectionsDoc ∧
    (docx_apply_doc emptySectionsDoc (topOnly 2)).sections.length = 0 :=
  ⟨rfl, rfl⟩

/-- C2 (amended): with zero sections, inspect reports the documented 8.5×11
page and 1-inch margins fallbacks, and apply with any margin setting still
succeeds — but by mutating nothing: no default section is created and the
document is returned unchanged. -/
theorem zero_sections_fallback (path : PyPath) (doc : Doc) (h : doc.sections = [])
    (ms : MarginSettings) :
    (docx_process_document path doc).page_dimensions = ⟨17 / 2, 11⟩ ∧
    (docx_process_document path doc).margins = ⟨1, 1, 1, 1⟩ ∧
    docx_apply_doc doc ⟨none, some ms, none, none, none⟩ = doc ∧
    (docx_apply_modifications (docx_process_document path doc)
        ⟨none, some ms, none, none, none⟩ true).1 =
      Except.ok (docx_get_output_path path) := by
  obtain ⟨core, secs, ps, t⟩ := doc
  simp only at h
  subst h
  exact ⟨rfl, rfl, rfl, rfl⟩

/-- C2 witness: the amended statement at a concrete zero-section document. -/
theorem zero_sections_fallback_witness :
    (docx_process_document pathDocx emptySectionsDoc).page_dimensions = ⟨17 / 2, 11⟩ ∧
    (docx_process_document pathDocx emptySectionsDoc).margins = ⟨1, 1, 1, 1⟩ ∧
    docx_apply_doc emptySectionsDoc ⟨none, some ⟨some 2, none, none, none⟩, none, none, none⟩ =
      emptySectionsDoc ∧
    (docx_apply_modifications (docx_process_document pathDocx emptySectionsDoc)
        ⟨none, some ⟨some 2, none, none, none⟩, none, none, none⟩ true).1 =
      Except.ok (docx_get_output_path pathDocx) :=
  zero_sections_fallback pathDocx emptySectionsDoc rfl ⟨some 2, none, none, none⟩

/-- C7 counterexample: a nonexistent path with extension .csv is rejected
with the file-does-not-exist error, not the unsupported-extension
(UnsupportedFormat) error, so the claim fails for arbitrary paths. -/
theorem csv_nonexistent_error_kind :
    dispatch_process_document (fun t => t) false false pathCsv none (InputDoc.rawOther []) =
      Except.error (DispatchError.invalidFile ValError.notExists) ∧
    DispatchError.invalidFile ValError.notExists ≠
      DispatchError.invalidFile ValError.badExtension :=
  ⟨rfl, by decide⟩

/-- C7 (amended): for every path that exists and denotes a regular file and
whose extension, compared case-insensitively, is neither .docx nor .rtf,
inspect fails with the unsupported-extension (UnsupportedFormat) error, and
the outcome is independent of the file content (no content is consulted). -/
theorem unsupported_extension_rejected (rt1 rt2 : List Char → List Char)
    (path : PyPath) (mime : Option (List Char)) (c1 c2 : InputDoc)
    (hbad : ¬ (pySuffixLower path.name ∈ supportedExtensions)) :
    dispatch_process_document rt1 true true path mime c1 =
      Except.error (DispatchError.invalidFile ValError.badExtension) ∧
    dispatch_process_document rt1 true true path mime c1 =
      dispatch_process_document rt2 true true path mime c2 := by
  have hv : validate_file true true path.name mime = some ValError.badExtension := by
    unfold validate_file
    simp [hbad]
  constructor
  · simp [dispatch_process_document, hv]
  · simp [dispatch_process_document, hv]

/-- C7 witness: the amended statement at a concrete existing .csv file. -/
theorem unsupported_extension_rejected_witness :
    dispatch_process_document (fun t => t) true true pathCsv (some "text/csv".data)
      (InputDoc.rawOther []) =
      Except.error (DispatchError.invalidFile ValError.badExtension) :=
  (unsupported_extension_rejected (fun t => t) (fun t => t) pathCsv (some "text/csv".data)
    (InputDoc.rawOther []) (InputDoc.rawOther []) (by decide)).1

theorem apply_run_font_name (fs : FontSettings) (fam : String)
    (hfam : fs.family = some fam) (hne : fam ≠ "") (r : Run) :
    (applyRunFont fs r).font_name = some fam := by
  have ht : truthyStr fs.family = true := by rw [hfam]; simp [truthyStr, hne]
  simp only [applyRunFont, ht, if_true]
  split <;> simp [hfam]

theorem apply_run_font_size (fs : FontSettings) (sz : ℚ)
    (hsz : fs.size = some sz) (hne : sz ≠ 0) (r : Run) :
    (applyRunFont fs r).font_size = some (Pt sz) := by
  have ht : truthyRat fs.size = true := by rw [hsz]; simp [truthyRat, hne]
  simp only [applyRunFont, ht, if_true]
  simp [hsz]

theorem apply_doc_run_map {β : Type} (doc : Doc) (s : ModificationSettings)
    (fs : FontSettings) (hfs : s.font_settings = some fs) (f : Run → β)
    (hguard : (truthyStr fs.family || truthyRat fs.size) = true) :
    (docx_apply_doc doc s).paragraphs.map (fun p => p.runs.map f) =
      doc.paragraphs.map (fun p => p.runs.map (fun r => f (applyRunFont fs r))) := by
  unfold docx_apply_doc
  rw [hfs]
  cases s.page_size <;> cases s.margins <;> cases s.line_spacing <;>
    simp [docx_apply_page_size, docx_apply_margins, docx_apply_font_settings,
          docx_apply_line_spacing, hguard, List.map_map, Function.comp]

/-- C1 (amended): when the settings contain the key `font_settings` (the key
the code reads) with a non-empty family and/or a nonzero size, apply on a
structured-package document overwrites every run of every paragraph uniformly
with that family and/or that size. -/
theorem font_settings_override (doc : Doc) (s : ModificationSettings) (fs : FontSettings)
    (hfs : s.font_settings = some fs) :
    (∀ fam, fs.family = some fam → fam ≠ "" →
      (docx_apply_doc doc s).paragraphs.map (fun p => p.runs.map Run.font_name) =
        doc.paragraphs.map (fun p => p.runs.map (fun _ => some fam))) ∧
    (∀ sz, fs.size = some sz → sz ≠ 0 →
      (docx_apply_doc doc s).paragraphs.map (fun p => p.runs.map Run.font_size) =
        doc.paragraphs.map (fun p => p.runs.map (fun _ => some (Pt sz)))) := by
  constructor
  · intro fam hfam hne
    have ht : truthyStr fs.family = true := by rw [hfam]; simp [truthyStr, hne]
    rw [apply_doc_run_map doc s fs hfs Run.font_name (by simp [ht])]
    refine List.map_congr_left (fun p _ => ?_)
    refine List.map_congr_left (fun r _ => ?_)
    exact apply_run_font_name fs fam hfam hne r
  · intro sz hsz hne
    have ht : truthyRat fs.size = true := by rw [hsz]; simp [truthyRat, hne]
    rw [apply_doc_run_map doc s fs hfs Run.font_size (by simp [ht])]
    refine List.map_congr_left (fun p _ => ?_)
    refine List.map_congr_left (fun r _ => ?_)
    exact apply_run_font_size fs sz hsz hne r

/-- C1 witness: the amended statement at a concrete document and settings
carrying `font_settings` with family "Arial" and size 12. -/
theorem font_settings_override_witness :
    (docx_apply_doc docTimes arialSizedSettings).paragraphs.map
        (fun p => p.runs.map Run.font_name) =
      docTimes.paragraphs.map (fun p => p.runs.map (fun _ => some "Arial")) ∧
    (docx_apply_doc docTimes arialSizedSettings).paragraphs.map
        (fun p => p.runs.map Run.font_size) =
      docTimes.paragraphs.map (fun p => p.runs.map (fun _ => some (Pt 12))) :=
  ⟨(font_settings_override docTimes arialSizedSettings ⟨some "Arial", some 12⟩ rfl).1
      "Arial" rfl (by decide),
   (font_settings_override docTimes arialSizedSettings ⟨some "Arial", some 12⟩ rfl).2
      12 rfl (by norm_num)⟩

/-- C1 counterexample: a settings dict containing only the spec-schema key
`font` with family "Arial" leaves the document untouched — the code reads the
key `font_settings`, so no run is overwritten and the claim fails. -/
theorem font_key_never_read :
    docx_apply_doc docTimes specFontKeySettings = docTimes ∧
    ¬ (∀ p ∈ (docx_apply_doc docTimes specFontKeySettings).paragraphs,
        ∀ r ∈ p.runs, r.font_name = some "Arial") :=
  ⟨rfl, by decide⟩

/-- C4: when the original text already contains the left-margin control word,
requesting a new margins.left value inserts nothing: the left injection is
skipped for any settings, and likewise each other side whose control word is
already present — a side is injected only when it is requested and absent
(by substring search) from the original.  With only margins.left requested
the output text is exactly the input, so no second occurrence appears and
the existing control word is untouched. -/
theorem margl_present_not_duplicated (orig : List Char) (x : ℚ)
    (hpres : containsSub cwMargl orig = true) :
    (∀ (s : ModificationSettings) (m : MarginSettings), s.margins = some m →
      rtfModifiedContent s orig =
        rtfModifiedContent { s with margins := some { m with left := none } } orig) ∧
    (∀ (s : ModificationSettings) (m : MarginSettings), s.margins = some m →
      containsSub cwMargr orig = true →
      rtfModifiedContent s orig =
        rtfModifiedContent { s with margins := some { m with right := none } } orig) ∧
    (∀ (s : ModificationSettings) (m : MarginSettings), s.margins = some m →
      containsSub cwMargt orig = true →
      rtfModifiedContent s orig =
        rtfModifiedContent { s with margins := some { m with top := none } } orig) ∧
    (∀ (s : ModificationSettings) (m : MarginSettings), s.margins = some m →
      containsSub cwMargb orig = true →
      rtfModifiedContent s orig =
        rtfModifiedContent { s with margins := some { m with bottom := none } } orig) ∧
    rtfModifiedContent (leftOnly x) orig = orig := by
  refine ⟨?_, ?_, ?_, ?_, ?_⟩
  · intro s m hm
    obtain ⟨mt, mb, ml, mr⟩ := m
    simp only [rtfModifiedContent, hm]
    cases ml with
    | none => rfl
    | some v => simp [rtfStepSide, hpres]
  · intro s m hm hr
    obtain ⟨mt, mb, ml, mr⟩ := m
    simp only [rtfModifiedContent, hm]
    cases mr with
    | none => rfl
    | some v => simp [rtfStepSide, hr]
  · intro s m hm ht
    obtain ⟨mt, mb, ml, mr⟩ := m
    simp only [rtfModifiedContent, hm]
    cases mt with
    | none => rfl
    | some v => simp [rtfStepSide, ht]
  · intro s m hm hb
    obtain ⟨mt, mb, ml, mr⟩ := m
    simp only [rtfModifiedContent, hm]
    cases mb with
    | none => rfl
    | some v => simp [rtfStepSide, hb]
  · simp [rtfModifiedContent, leftOnly, rtfStepSide, hpres]

/-- C4 witness: the statement at a concrete text already containing the
left-margin control word. -/
theorem margl_present_not_duplicated_witness :
    rtfModifiedContent (leftOnly 1) rtfWithMargl = rtfWithMargl :=
  (margl_present_not_duplicated rtfWithMargl 1 (by decide)).2.2.2.2

/-! ## String-replacement lemmas for the control-word patch (C3) -/

theorem isPrefixOf_append_drop (pat s : List Char) (h : pat.isPrefixOf s = true) :
    pat ++ s.drop pat.length = s := by
  induction pat generalizing s with
  | nil => simp
  | cons p ps ih =>
    cases s with
    | nil => simp [List.isPrefixOf] at h
    | cons c cs =>
      simp only [List.isPrefixOf, Bool.and_eq_true, beq_iff_eq] at h
      obtain ⟨h1, h2⟩ := h
      subst h1
      simp only [List.cons_append, List.length_cons, List.drop_succ_cons]
      rw [ih cs h2]

theorem isPrefixOf_self_append (pat t : List Char) : pat.isPrefixOf (pat ++ t) = true := by
  induction pat with
  | nil => simp [List.isPrefixOf]
  | cons p ps ih => simp [List.isPrefixOf, ih]

theorem isPrefixOf_append_indep (pat u : List Char) (v : List Char)
    (h : pat.length ≤ u.length) :
    pat.isPrefixOf (u ++ v) = pat.isPrefixOf u := by
  induction pat generalizing u with
  | nil => simp [List.isPrefixOf]
  | cons p ps ih =>
    cases u with
    | nil => simp at h
    | cons a us =>
      simp only [List.cons_append, List.isPrefixOf, List.append_eq]
      rw [ih us (by simpa using h)]

theorem splitFirst_nil_left (s : List Char) : splitFirst ([] : List Char) s = none := by
  induction s with
  | nil => rfl
  | cons c cs ih => simp [splitFirst, ih]

theorem splitFirst_pat_ne_nil (pat s : List Char) (a b : List Char)
    (h : splitFirst pat s = some (a, b)) : pat ≠ [] := by
  intro hp
  subst hp
  rw [splitFirst_nil_left] at h
  exact Option.noConfusion h

theorem replaceAllAux_congr (pat rep : List Char) (f1 f2 : Nat) (s : List Char)
    (h1 : s.length ≤ f1) (h2 : s.length ≤ f2) :
    replaceAllAux pat rep f1 s = replaceAllAux pat rep f2 s := by
  induction f1 generalizing s f2 with
  | zero =>
    have hs : s = [] := List.eq_nil_of_length_eq_zero (Nat.le_zero.mp h1)
    subst hs
    cases f2 <;> rfl
  | succ g1 ih =>
    cases s with
    | nil => cases f2 <;> rfl
    | cons c cs =>
      cases f2 with
      | zero => simp at h2
      | succ g2 =>
        simp only [replaceAllAux]
        split
        · rename_i hc
          have hpat : 1 ≤ pat.length := by
            cases hp : pat with
            | nil => exact absurd hp hc.1
            | cons x xs => simp
          congr 1
          apply ih
          · simp only [List.length_drop, List.length_cons]
            simp only [List.length_cons] at h1
            omega
          · simp only [List.length_drop, List.length_cons]
            simp only [List.length_cons] at h2
            omega
        · congr 1
          apply ih
          · simp only [List.length_cons] at h1; omega
          · simp only [List.length_cons] at h2; omega

theorem replaceAllAux_of_splitFirst_none (pat rep : List Char) (fuel : Nat) (s : List Char)
    (hf : s.length ≤ fuel) (h : splitFirst pat s = none) :
    replaceAllAux pat rep fuel s = s := by
  induction fuel generalizing s with
  | zero =>
    have hs : s = [] := List.eq_nil_of_length_eq_zero (Nat.le_zero.mp hf)
    subst hs
    rfl
  | succ g ih =>
    cases s with
    | nil => rfl
    | cons c cs =>
      simp only [replaceAllAux]
      by_cases hc : pat ≠ [] ∧ pat.isPrefixOf (c :: cs) = true
      · exfalso
        simp only [splitFirst, if_pos hc] at h
        exact Option.noConfusion h
      · rw [if_neg hc]
        have hcs : splitFirst pat cs = none := by
          simp only [splitFirst, if_neg hc] at h
          cases hcs : splitFirst pat cs with
          | none => rfl
          | some ab =>
            obtain ⟨a, b⟩ := ab
            rw [hcs] at h
            exact Option.noConfusion h
        congr 1
        apply ih
        · simp only [List.length_cons] at hf; omega
        · exact hcs

theorem replaceAll_of_splitFirst_none (pat rep s : List Char)
    (h : splitFirst pat s = none) : replaceAll pat rep s = s :=
  replaceAllAux_of_splitFirst_none pat rep s.length s (Nat.le_refl _) h

theorem splitFirst_eq_append (pat s a b : List Char) (h : splitFirst pat s = some (a, b)) :
    s = a ++ pat ++ b := by
  induction s generalizing a b with
  | nil => exact Option.noConfusion h
  | cons c cs ih =>
    by_cases hc : pat ≠ [] ∧ pat.isPrefixOf (c :: cs) = true
    · simp only [splitFirst, if_pos hc, Option.some.injEq, Prod.mk.injEq] at h
      obtain ⟨ha, hb⟩ := h
      subst ha
      subst hb
      simp only [List.nil_append]
      exact (isPrefixOf_append_drop pat (c :: cs) hc.2).symm
    · simp only [splitFirst, if_neg hc] at h
      cases hcs : splitFirst pat cs with
      | none => rw [hcs] at h; exact Option.noConfusion h
      | some ab =>
        obtain ⟨a', b'⟩ := ab
        rw [hcs] at h
        simp only [Option.some.injEq, Prod.mk.injEq] at h
        obtain ⟨ha, hb⟩ := h
        subst ha
        subst hb
        simp only [List.cons_append]
        rw [← ih a' b' hcs]

theorem replaceAllAux_splitFirst (pat rep : List Char) (fuel : Nat) (s a b : List Char)
    (hf : s.length ≤ fuel) (h : splitFirst pat s = some (a, b)) :
    replaceAllAux pat rep fuel s = a ++ rep ++ replaceAll pat rep b := by
  induction fuel generalizing s a with
  | zero =>
    have hs : s = [] := List.eq_nil_of_length_eq_zero (Nat.le_zero.mp hf)
    subst hs
    exact Option.noConfusion h
  | succ g ih =>
    cases s with
    | nil => exact Option.noConfusion h
    | cons c cs =>
      simp only [replaceAllAux]
      by_cases hc : pat ≠ [] ∧ pat.isPrefixOf (c :: cs) = true
      · rw [if_pos hc]
        simp only [splitFirst, if_pos hc, Option.some.injEq, Prod.mk.injEq] at h
        obtain ⟨ha, hb⟩ := h
        subst ha
        subst hb
        simp only [List.nil_append]
        congr 1
        have hpat : 1 ≤ pat.length := by
          cases hp : pat with
          | nil => exact absurd hp hc.1
          | cons x xs => simp
        apply replaceAllAux_congr
        · simp only [List.length_drop, List.length_cons]
          simp only [List.length_cons] at hf
          omega
        · exact Nat.le_refl _
      · rw [if_neg hc]
        simp only [splitFirst, if_neg hc] at h
        cases hcs : splitFirst pat cs with
        | none => rw [hcs] at h; exact Option.noConfusion h
        | some ab =>
          obtain ⟨a', b'⟩ := ab
          rw [hcs] at h
          simp only [Option.some.injEq, Prod.mk.injEq] at h
          obtain ⟨ha, hb⟩ := h
          subst ha
          subst hb
          have hlen : cs.length ≤ g := by
            simp only [List.length_cons] at hf; omega
          rw [ih cs a' hlen hcs]
          rfl

theorem splitFirst_replaceAll (pat rep s a b : List Char)
    (h : splitFirst pat s = some (a, b)) :
    replaceAll pat rep s = a ++ rep ++ replaceAll pat rep b :=
  replaceAllAux_splitFirst pat rep s.length s a b (Nat.le_refl _) h

theorem splitFirst_noEarly (pat s a b : List Char) (h : splitFirst pat s = some (a, b)) :
    ∀ i, i < a.length → pat.isPrefixOf (s.drop i) = false := by
  induction s generalizing a b with
  | nil => exact Option.noConfusion h
  | cons c cs ih =>
    by_cases hc : pat ≠ [] ∧ pat.isPrefixOf (c :: cs) = true
    · simp only [splitFirst, if_pos hc, Option.some.injEq, Prod.mk.injEq] at h
      obtain ⟨ha, _⟩ := h
      subst ha
      intro i hi
      exact absurd hi (by simp)
    · simp only [splitFirst, if_neg hc] at h
      cases hcs : splitFirst pat cs with
      | none => rw [hcs] at h; exact Option.noConfusion h
      | some ab =>
        obtain ⟨a', b'⟩ := ab
        rw [hcs] at h
        simp only [Option.some.injEq, Prod.mk.injEq] at h
        obtain ⟨ha, hb⟩ := h
        subst ha
        subst hb
        intro i hi
        cases i with
        | zero =>
          simp only [List.drop_zero]
          have hp : pat ≠ [] := splitFirst_pat_ne_nil pat cs a' b' hcs
          cases hpre : pat.isPrefixOf (c :: cs) with
          | false => rfl
          | true => exact absurd ⟨hp, hpre⟩ hc
        | succ j =>
          simp only [List.drop_succ_cons]
          exact ih a' b' hcs j (by simpa using hi)

theorem splitFirst_noEarly_indep (pat s a b : List Char)
    (h : splitFirst pat s = some (a, b)) :
    ∀ i, i < a.length → ∀ C : List Char,
      pat.isPrefixOf ((a ++ pat).drop i ++ C) = false := by
  intro i hi C
  have hs := splitFirst_eq_append pat s a b h
  have h1 : pat.isPrefixOf (s.drop i) = false := splitFirst_noEarly pat s a b h i hi
  have hlen : pat.length ≤ ((a ++ pat).drop i).length := by
    simp only [List.length_drop, List.length_append]
    omega
  have hdrop : s.drop i = (a ++ pat).drop i ++ b := by
    rw [hs, List.drop_append_eq_append_drop]
    have hz : i - (a ++ pat).length = 0 := by
      simp only [List.length_append]
      omega
    rw [hz, List.drop_zero]
  rw [hdrop, isPrefixOf_append_indep pat _ b hlen] at h1
  rw [isPrefixOf_append_indep pat _ C hlen]
  exact h1

theorem splitFirst_rebuild (pat a b : List Char) (hp : pat ≠ [])
    (hno : ∀ i, i < a.length → ∀ C : List Char,
      pat.isPrefixOf ((a ++ pat).drop i ++ C) = false) :
    splitFirst pat (a ++ pat ++ b) = some (a, b) := by
  induction a with
  | nil =>
    simp only [List.nil_append]
    cases hpat : pat with
    | nil => exact absurd hpat hp
    | cons p ps =>
      subst hpat
      show splitFirst (p :: ps) (p :: (ps ++ b)) = some ([], b)
      have hcond : (p :: ps) ≠ [] ∧ (p :: ps).isPrefixOf (p :: (ps ++ b)) = true :=
        ⟨by simp, isPrefixOf_self_append (p :: ps) b⟩
      simp only [splitFirst, if_pos hcond, Option.some.injEq, Prod.mk.injEq]
      refine ⟨trivial, ?_⟩
      exact List.drop_left (p :: ps) b
  | cons x a' ih =>
    have hx : (x :: a') ++ pat ++ b = x :: (a' ++ pat ++ b) := by simp
    rw [hx]
    have h0 : pat.isPrefixOf (x :: (a' ++ pat ++ b)) = false := by
      have h := hno 0 (by simp) b
      simp only [List.drop_zero] at h
      exact h
    have hcond : ¬ (pat ≠ [] ∧ pat.isPrefixOf (x :: (a' ++ pat ++ b)) = true) := by
      intro hcc
      rw [h0] at hcc
      exact Bool.noConfusion hcc.2
    simp only [splitFirst, if_neg hcond]
    have hrec : splitFirst pat (a' ++ pat ++ b) = some (a', b) := by
      apply ih
      intro i hi C
      have := hno (i + 1) (by simp only [List.length_cons]; omega) C
      simpa using this
    rw [hrec]

theorem splitFirst_none_append (pat E B : List Char)
    (hE : ∀ i, i < E.length → ∀ C : List Char, pat.isPrefixOf (E.drop i ++ C) = false)
    (hB : splitFirst pat B = none) :
    splitFirst pat (E ++ B) = none := by
  induction E with
  | nil => simpa using hB
  | cons c E' ih =>
    have h0 : pat.isPrefixOf (c :: (E' ++ B)) = false := by
      simpa using hE 0 (by simp) B
    have hcond : ¬ (pat ≠ [] ∧ pat.isPrefixOf (c :: (E' ++ B)) = true) := by
      intro hcc
      rw [h0] at hcc
      exact Bool.noConfusion hcc.2
    show splitFirst pat (c :: (E' ++ B)) = none
    simp only [splitFirst, if_neg hcond]
    rw [ih (fun i hi C => by simpa using hE (i + 1) (by simp only [List.length_cons]; omega) C)]

theorem clean_append (pat E F : List Char)
    (hE : ∀ i, i < E.length → ∀ C : List Char, pat.isPrefixOf (E.drop i ++ C) = false)
    (hF : ∀ i, i < F.length → ∀ C : List Char, pat.isPrefixOf (F.drop i ++ C) = false) :
    ∀ i, i < (E ++ F).length → ∀ C : List Char,
      pat.isPrefixOf ((E ++ F).drop i ++ C) = false := by
  intro i hi C
  rw [List.drop_append_eq_append_drop]
  by_cases h : i < E.length
  · have h0 : i - E.length = 0 := by omega
    rw [h0, List.drop_zero, List.append_assoc]
    exact hE i h (F ++ C)
  · have hE0 : E.drop i = [] := List.drop_eq_nil_of_le (by omega)
    rw [hE0, List.nil_append]
    apply hF (i - E.length) ?_ C
    simp only [List.length_append] at hi
    omega

theorem clean_rtfTag_extra (t : List Char) (ht : ('\\' : Char) ∉ ('m' :: t)) :
    ∀ i, i < ('\\' :: 'm' :: t).length → ∀ C : List Char,
      rtfTag.isPrefixOf (('\\' :: 'm' :: t).drop i ++ C) = false := by
  intro i hi C
  have htag : rtfTag = '\\' :: 'r' :: ['t', 'f', '1'] := rfl
  cases i with
  | zero =>
    rw [List.drop_zero, htag]
    simp only [List.cons_append, List.isPrefixOf]
    rw [show (('r' : Char) == 'm') = false from rfl]
    simp
  | succ j =>
    have hj : j < ('m' :: t).length := by simpa using hi
    rw [List.drop_succ_cons, List.drop_eq_getElem_cons hj]
    have hmem : ('m' :: t)[j] ∈ ('m' :: t) := List.getElem_mem hj
    have hne : (('\\' : Char) == ('m' :: t)[j]) = false := by
      rw [beq_eq_false_iff_ne]
      intro he
      exact ht (he ▸ hmem)
    rw [htag]
    simp only [List.cons_append, List.isPrefixOf, hne]
    simp

theorem digitChar_mem (n : Nat) :
    digitChar n ∈ ['0', '1', '2', '3', '4', '5', '6', '7', '8', '9'] := by
  unfold digitChar
  split <;> decide

theorem natDigitsAux_mem (fuel : Nat) : ∀ (n : Nat) (c : Char),
    c ∈ natDigitsAux fuel n → c ∈ ['0', '1', '2', '3', '4', '5', '6', '7', '8', '9'] := by
  induction fuel with
  | zero => intro n c hc; simp [natDigitsAux] at hc
  | succ g ih =>
    intro n c hc
    simp only [natDigitsAux] at hc
    split at hc
    · simp only [List.mem_singleton] at hc
      subst hc
      exact digitChar_mem n
    · rcases List.mem_append.mp hc with h | h
      · exact ih _ c h
      · simp only [List.mem_singleton] at h
        subst h
        exact digitChar_mem _

theorem digit_ne_backslash (c : Char)
    (h : c ∈ ['0', '1', '2', '3', '4', '5', '6', '7', '8', '9']) : c ≠ '\\' := by
  fin_cases h <;> decide

theorem intDigits_no_backslash (i : Int) (c : Char) (hc : c ∈ intDigits i) : c ≠ '\\' := by
  unfold intDigits at hc
  split at hc
  · rcases List.mem_cons.mp hc with h | h
    · subst h; decide
    · exact digit_ne_backslash c (natDigitsAux_mem _ _ c h)
  · exact digit_ne_backslash c (natDigitsAux_mem _ _ c hc)

theorem clean_inj_side (rest : List Char) (hrest : ∀ c ∈ rest, c ≠ '\\') (i : Int) :
    ∀ j, j < (('\\' :: 'm' :: rest) ++ intDigits i).length → ∀ C : List Char,
      rtfTag.isPrefixOf ((('\\' :: 'm' :: rest) ++ intDigits i).drop j ++ C) = false := by
  have hshape : ('\\' :: 'm' :: rest) ++ intDigits i = '\\' :: 'm' :: (rest ++ intDigits i) := rfl
  rw [hshape]
  apply clean_rtfTag_extra
  intro hmem
  rcases List.mem_cons.mp hmem with h | h
  · exact absurd h (by decide)
  · rcases List.mem_append.mp h with h | h
    · exact hrest _ h rfl
    · exact intDigits_no_backslash i _ h rfl

theorem rtfStepSide_decomp (cw rest : List Char) (hcw : cw = '\\' :: 'm' :: rest)
    (hrest : ∀ c ∈ rest, c ≠ '\\') (req : Option ℚ) (orig A E B : List Char)
    (hA : ∀ i, i < A.length → ∀ C : List Char,
      rtfTag.isPrefixOf ((A ++ rtfTag).drop i ++ C) = false)
    (hE : ∀ i, i < E.length → ∀ C : List Char, rtfTag.isPrefixOf (E.drop i ++ C) = false)
    (hB : splitFirst rtfTag B = none) :
    rtfStepSide cw req orig (A ++ rtfTag ++ (E ++ B)) =
      A ++ rtfTag ++ ((sideExtraOf cw req orig ++ E) ++ B) ∧
    (∀ i, i < (sideExtraOf cw req orig ++ E).length → ∀ C : List Char,
      rtfTag.isPrefixOf ((sideExtraOf cw req orig ++ E).drop i ++ C) = false) := by
  cases req with
  | none => exact ⟨by simp [rtfStepSide, sideExtraOf], by simpa [sideExtraOf] using hE⟩
  | some v =>
    by_cases hcont : containsSub cw orig = true
    · constructor
      · simp [rtfStepSide, sideExtraOf, hcont]
      · simpa [sideExtraOf, hcont] using hE
    · have hcont' : containsSub cw orig = false := by
        cases hcb : containsSub cw orig with
        | false => rfl
        | true => exact absurd hcb hcont
      have hXclean : ∀ j, j < (cw ++ intDigits (pyTrunc (v * 1440))).length →
          ∀ C : List Char,
            rtfTag.isPrefixOf ((cw ++ intDigits (pyTrunc (v * 1440))).drop j ++ C) = false := by
        rw [hcw]
        exact clean_inj_side rest hrest (pyTrunc (v * 1440))
      have hsplit : splitFirst rtfTag (A ++ rtfTag ++ (E ++ B)) = some (A, E ++ B) :=
        splitFirst_rebuild rtfTag A (E ++ B) (by decide) hA
      have hEB : splitFirst rtfTag (E ++ B) = none := splitFirst_none_append rtfTag E B hE hB
      constructor
      · show (if containsSub cw orig = true then A ++ rtfTag ++ (E ++ B)
          else replaceAll rtfTag (rtfTag ++ cw ++ intDigits (pyTrunc (v * 1440)))
            (A ++ rtfTag ++ (E ++ B))) =
          A ++ rtfTag ++ ((sideExtraOf cw (some v) orig ++ E) ++ B)
        rw [if_neg (by rw [hcont']; exact Bool.false_ne_true)]
        rw [splitFirst_replaceAll rtfTag _ _ _ _ hsplit]
        rw [replaceAll_of_splitFirst_none _ _ _ hEB]
        show A ++ (rtfTag ++ cw ++ intDigits (pyTrunc (v * 1440))) ++ (E ++ B) =
          A ++ rtfTag ++ ((sideExtraOf cw (some v) orig ++ E) ++ B)
        simp [sideExtraOf, hcont', List.append_assoc]
      · intro i hi C
        have hXE : sideExtraOf cw (some v) orig = cw ++ intDigits (pyTrunc (v * 1440)) := by
          simp [sideExtraOf, hcont']
        rw [hXE] at hi ⊢
        exact clean_append rtfTag _ E hXclean hE i hi C

/-- C3 (amended): for every control-word document whose text contains the
opening tag `\rtf1` exactly once (the tag is found and no further occurrence
follows it), apply never alters any character of the body: the output equals
the input with the margin control words of the requested-and-absent sides —
each value converted at 1 inch = 1440 native units — injected immediately
after the opening tag (in order bottom, top, right, left). -/
theorem rtf_apply_preserves_body (A B : List Char) (s : ModificationSettings)
    (m : MarginSettings) (hm : s.margins = some m)
    (h1 : splitFirst rtfTag (A ++ rtfTag ++ B) = some (A, B))
    (h2 : splitFirst rtfTag B = none) :
    rtfModifiedContent s (A ++ rtfTag ++ B) =
      A ++ rtfTag ++
        (sideExtraOf cwMargb m.bottom (A ++ rtfTag ++ B) ++
          (sideExtraOf cwMargt m.top (A ++ rtfTag ++ B) ++
            (sideExtraOf cwMargr m.right (A ++ rtfTag ++ B) ++
              (sideExtraOf cwMargl m.left (A ++ rtfTag ++ B) ++ B)))) := by
  have hA := splitFirst_noEarly_indep rtfTag _ A B h1
  have hE0 : ∀ i, i < ([] : List Char).length → ∀ C : List Char,
      rtfTag.isPrefixOf (([] : List Char).drop i ++ C) = false := by
    intro i hi C
    simp at hi
  have s1 := rtfStepSide_decomp cwMargl "argl".data rfl (by decide) m.left
    (A ++ rtfTag ++ B) A [] B hA hE0 h2
  have s2 := rtfStepSide_decomp cwMargr "argr".data rfl (by decide) m.right
    (A ++ rtfTag ++ B) A (sideExtraOf cwMargl m.left (A ++ rtfTag ++ B) ++ []) B hA s1.2 h2
  have s3 := rtfStepSide_decomp cwMargt "argt".data rfl (by decide) m.top
    (A ++ rtfTag ++ B) A
    (sideExtraOf cwMargr m.right (A ++ rtfTag ++ B) ++
      (sideExtraOf cwMargl m.left (A ++ rtfTag ++ B) ++ [])) B hA s2.2 h2
  have s4 := rtfStepSide_decomp cwMargb "argb".data rfl (by decide) m.bottom
    (A ++ rtfTag ++ B) A
    (sideExtraOf cwMargt m.top (A ++ rtfTag ++ B) ++
      (sideExtraOf cwMargr m.right (A ++ rtfTag ++ B) ++
        (sideExtraOf cwMargl m.left (A ++ rtfTag ++ B) ++ []))) B hA s3.2 h2
  have hc1 : rtfStepSide cwMargl m.left (A ++ rtfTag ++ B) (A ++ rtfTag ++ B) =
      A ++ rtfTag ++ ((sideExtraOf cwMargl m.left (A ++ rtfTag ++ B) ++ []) ++ B) := s1.1
  simp only [rtfModifiedContent, hm]
  rw [hc1, s2.1, s3.1, s4.1]
  simp

/-- C3 witness: the amended statement at a concrete one-tag document with all
four margins requested and absent. -/
theorem rtf_apply_preserves_body_witness :
    rtfModifiedContent ⟨none, some ⟨some 1, some 1, some 1, some 1⟩, none, none, none⟩
        ("\x7b".data ++ rtfTag ++ " hi\x7d".data) =
      "\x7b".data ++ rtfTag ++
        (sideExtraOf cwMargb (some 1) ("\x7b".data ++ rtfTag ++ " hi\x7d".data) ++
          (sideExtraOf cwMargt (some 1) ("\x7b".data ++ rtfTag ++ " hi\x7d".data) ++
            (sideExtraOf cwMargr (some 1) ("\x7b".data ++ rtfTag ++ " hi\x7d".data) ++
              (sideExtraOf cwMargl (some 1) ("\x7b".data ++ rtfTag ++ " hi\x7d".data) ++
                " hi\x7d".data)))) :=
  rtf_apply_preserves_body "\x7b".data " hi\x7d".data
    ⟨none, some ⟨some 1, some 1, some 1, some 1⟩, none, none, none⟩
    ⟨some 1, some 1, some 1, some 1⟩ rfl (by decide) (by decide)

/-- C3 counterexample: when the opening tag occurs twice, the left-margin
control word is injected after both occurrences, so the document body is
altered and the output is not the input with a single injection after the
stream's opening tag. -/
theorem rtf_two_tags_body_altered :
    rtfModifiedContent (leftOnly 1) rtfTwoTags =
      "\x7b\\rtf1\\margl1440 abc \\rtf1\\margl1440 def\x7d".data ∧
    rtfModifiedContent (leftOnly 1) rtfTwoTags ≠
      "\x7b\\rtf1\\margl1440 abc \\rtf1 def\x7d".data := by
  have h : pyTrunc ((1 : ℚ) * 1440) = 1440 := by norm_num [pyTrunc]
  constructor
  · simp only [rtfModifiedContent, rtfStepSide, leftOnly, h]
    decide
  · simp only [rtfModifiedContent, rtfStepSide, leftOnly, h]
    decide

/-! ## Dictionary-fold lemmas for the font extraction (C6) -/

theorem dedupFirstAux_congr {α : Type} [DecidableEq α] (f1 f2 : Nat) (l : List α)
    (h1 : l.length ≤ f1) (h2 : l.length ≤ f2) :
    dedupFirstAux f1 l = dedupFirstAux f2 l := by
  induction f1 generalizing l f2 with
  | zero =>
    have hl : l = [] := List.eq_nil_of_length_eq_zero (Nat.le_zero.mp h1)
    subst hl
    cases f2 <;> rfl
  | succ g1 ih =>
    cases l with
    | nil => cases f2 <;> rfl
    | cons a as =>
      cases f2 with
      | zero => simp at h2
      | succ g2 =>
        simp only [dedupFirstAux]
        congr 1
        apply ih
        · have := List.length_filter_le (fun x => x ≠ a) as
          simp only [List.length_cons] at h1
          omega
        · have := List.length_filter_le (fun x => x ≠ a) as
          simp only [List.length_cons] at h2
          omega

theorem dedupFirst_cons {α : Type} [DecidableEq α] (a : α) (l : List α) :
    dedupFirst (a :: l) = a :: dedupFirst (l.filter (fun x => x ≠ a)) := by
  unfold dedupFirst
  simp only [List.length_cons, dedupFirstAux]
  congr 1
  apply dedupFirstAux_congr
  · exact List.length_filter_le _ _
  · exact Nat.le_refl _

theorem dict_any_eq_mem {α : Type} [DecidableEq α] (d : List (α × Nat)) (k : α) :
    d.any (fun kv => kv.1 = k) = true ↔ k ∈ d.map Prod.fst := by
  simp only [List.any_eq_true, decide_eq_true_eq, List.mem_map]

theorem dictSet_keys_mem {α : Type} [DecidableEq α] (d : List (α × Nat)) (k : α)
    (h : k ∈ d.map Prod.fst) :
    (dictSet d k 0).map Prod.fst = d.map Prod.fst := by
  unfold dictSet
  rw [if_pos ((dict_any_eq_mem d k).mpr h)]
  rw [List.map_map]
  refine List.map_congr_left (fun kv _ => ?_)
  by_cases hk : kv.1 = k <;> simp [hk]

theorem dictSet_keys_new {α : Type} [DecidableEq α] (d : List (α × Nat)) (k : α)
    (h : ¬ k ∈ d.map Prod.fst) :
    (dictSet d k 0).map Prod.fst = d.map Prod.fst ++ [k] := by
  unfold dictSet
  rw [if_neg (fun hc => h ((dict_any_eq_mem d k).mp hc))]
  simp

theorem dictSet_fold_keys (names : List (List Char)) :
    ∀ acc : List (List Char × Nat),
      (names.foldl (fun d nm => dictSet d nm 0) acc).map Prod.fst =
        acc.map Prod.fst ++
          dedupFirst (names.filter (fun nm => nm ∉ acc.map Prod.fst)) := by
  induction names with
  | nil =>
    intro acc
    simp [dedupFirst, dedupFirstAux]
  | cons nm names ih =>
    intro acc
    rw [List.foldl_cons]
    by_cases hmem : nm ∈ acc.map Prod.fst
    · rw [ih (dictSet acc nm 0)]
      simp only [dictSet_keys_mem acc nm hmem]
      rw [List.filter_cons, if_neg (by simpa using hmem)]
    · rw [ih (dictSet acc nm 0)]
      simp only [dictSet_keys_new acc nm hmem]
      rw [List.filter_cons, if_pos (by simpa using hmem), dedupFirst_cons]
      have hfilt : names.filter (fun x => decide (x ∉ List.map Prod.fst acc ++ [nm])) =
          (names.filter (fun x => decide (x ∉ List.map Prod.fst acc))).filter
            (fun x => decide (x ≠ nm)) := by
        rw [List.filter_filter]
        refine List.filter_congr (fun x _ => ?_)
        by_cases h1 : x ∈ acc.map Prod.fst <;> by_cases h2 : x = nm <;> simp [h1, h2]
      rw [hfilt]
      simp [List.append_assoc]

/-- C6 (amended): the fonts_used mapping is built by locating the font table
block and collecting its declared (id, name) pairs, but each declared font
(keyed by stripped name, first-occurrence order, duplicate names collapsed)
is then counted by the number of case-insensitive matches, anywhere in the
entire content (the font table included), of any font control word followed
by optional whitespace and a backslash-free stretch ending in that font's
name — not by references of the font's own id in the remaining body. -/
theorem extract_fonts_amended (content : List Char) :
    extract_rtf_fonts content = amended_fonts_used content := by
  unfold extract_rtf_fonts amended_fonts_used
  cases h : findFontTable content with
  | none => rfl
  | some table =>
    simp only [h]
    have hfold : (findFontDecls table).foldl (fun d kv => dictSet d (pyStrip kv.2) 0)
        ([] : List (List Char × Nat)) =
        ((findFontDecls table).map (fun kv => pyStrip kv.2)).foldl
          (fun d nm => dictSet d nm 0) [] := by
      rw [List.foldl_map]
    rw [hfold]
    have hmapmap : ∀ l : List (List Char × Nat),
        l.map (fun kv => (kv.1, countMatches (countPatItems kv.1) content)) =
          (l.map Prod.fst).map (fun nm => (nm, countMatches (countPatItems nm) content)) := by
      intro l
      rw [List.map_map]
      rfl
    rw [hmapmap]
    rw [dictSet_fold_keys _ []]
    simp

/-- C6 counterexample: a document declaring font id 0 as "Arial" and
referencing `\f0` twice in the body after the table: the code reports count 1
(the single match of a font control word followed by the name — the table
declaration itself), while counting references of the font's id in the
remaining body gives 2. -/
theorem fonts_count_not_id_refs :
    extract_rtf_fonts fontsRtfContent = [("Arial".data, 1)] ∧
    spec_fonts_used fontsRtfContent = [("Arial".data, 2)] ∧
    (1 : Nat) ≠ 2 :=
  ⟨by decide, by decide, by decide⟩
